import Mathlib

/-
Verification of the build-tree engine of the open-ce repository
(src/open-ce/build_tree.py and src/open-ce/errors.py).

The Python modules are shallowly embedded: classes become structures, the
in-place mutation performed by `_add_build_command_dependencies` becomes a
function returning the updated list, Python sets are represented by lists in
iteration order, Python dicts by association lists where an update prepends
the new binding (lookup takes the first match, i.e. the latest update), and
raised exceptions become `Except` / `Option` results.  External collaborators
(the filesystem check `os.path.exists`, the `os.system` call used for
cloning, and the conda recipe renderer producing the per-variant batches of
build commands) are inputs to the embedded functions.
-/

namespace OpenCE

/-! ## String formatting (Python `str.format` with positional `{}` slots) -/

def lbrace : Char := Char.ofNat 123

def rbrace : Char := Char.ofNat 125

/-- Replace successive occurrences of the two-character slot `\x7b\x7d` in a
character list by the successive argument strings, as Python
`fmt.format(*args)` does for the format strings used in `errors.py`. -/
def fmtChars : List Char → List String → List Char
  | [], _ => []
  | c1 :: c2 :: rest, a :: args =>
    if c1 = lbrace ∧ c2 = rbrace then a.data ++ fmtChars rest args
    else c1 :: fmtChars (c2 :: rest) (a :: args)
  | c :: rest, args => c :: fmtChars rest args

/-- Python `fmt.format(*args)` restricted to positional empty-brace slots. -/
def formatMsg (fmt : String) (args : List String) : String :=
  String.mk (fmtChars fmt.data args)

/-! ## errors.py -/

/-- The `Error` enum of errors.py: a stable numeric code paired with a
format string. -/
inductive Error where
  | ERROR
  | CREATE_CONTAINER
  | COPY_DIR_TO_CONTAINER
  | START_CONTAINER
  | BUILD_IN_CONTAINER
  | BUILD_IMAGE
  | VALIDATE_ENV
  | VALIDATE_CONFIG
  | CONFIG_CONTENT
  | CLONE_REPO
  | CREATE_BUILD_TREE
  | BUILD_RECIPE
  | CONFIG_FILE
  | LOCAL_SRC_DIR
  | BUILD_TREE_CYCLE
deriving DecidableEq

/-- The `(code, message)` value of each `Error` enum member, exactly as in
errors.py (`\x7b\x7d` is a literal `{}` slot, `\x27` an apostrophe). -/
def Error.value : Error → Nat × String
  | .ERROR => (0, "Unexpected Error: \x7b\x7d")
  | .CREATE_CONTAINER => (1, "Error creating docker container: \"\x7b\x7d\"")
  | .COPY_DIR_TO_CONTAINER => (2, "Error copying \"\x7b\x7d\" directory into container: \"\x7b\x7d\"")
  | .START_CONTAINER => (3, "Error starting docker container: \"\x7b\x7d\"")
  | .BUILD_IN_CONTAINER => (4, "Error executing build in container: \"\x7b\x7d\"")
  | .BUILD_IMAGE => (5, "Failure building image: \"\x7b\x7d\"")
  | .VALIDATE_ENV => (6, "Error validating \"\x7b\x7d\" for variant \x7b\x7d\n\x7b\x7d")
  | .VALIDATE_CONFIG => (7, "Error validating \"\x7b\x7d\" for \"\x7b\x7d\" in variant \"\x7b\x7d\"\n\x7b\x7d")
  | .CONFIG_CONTENT => (8, "Content Error!:\nAn environment file needs to specify packages or import another environment file.")
  | .CLONE_REPO => (9, "Unable to clone repository: \x7b\x7d")
  | .CREATE_BUILD_TREE => (10, "Error creating Build Tree\n\x7b\x7d")
  | .BUILD_RECIPE => (11, "Unable to build recipe: \x7b\x7d\n\x7b\x7d")
  | .CONFIG_FILE => (12, "Unable to open provided config file: \x7b\x7d")
  | .LOCAL_SRC_DIR => (13, "local_src_dir path \"\x7b\x7d\" specified doesn\x27t exist")
  | .BUILD_TREE_CYCLE => (14, "Build dependencies should form a Directed Acyclic Graph.\nThe following dependency cycles were detected in the build tree:\n\x7b\x7d")

/-- The `OpenCEError` exception: the constructing enum member together with
the formatted message built in `OpenCEError.__init__`. -/
structure OpenCEError where
  error : Error
  msg : String
deriving DecidableEq

/-- Construction of an `OpenCEError` from an enum member and positional
arguments, mirroring `OpenCEError.__init__` in errors.py. -/
def mkOpenCEError (e : Error) (args : List String) : OpenCEError :=
  ⟨e, formatMsg "[OPEN-CE-ERROR-\x7b\x7d] \x7b\x7d" [toString e.value.1, formatMsg e.value.2 args]⟩

/-! ## Data model: BuildCommand (build_tree.py lines 19-83) -/

/-- The `BuildCommand` class.  Python sets (`packages` and the four
dependency sets) are represented as lists in iteration order; dict and set
iteration order in the source is unspecified, and no claim below depends on
the order chosen. -/
structure BuildCommand where
  recipe : String
  repository : String
  packages : List String
  python : String
  build_type : String
  mpi_type : String
  run_dependencies : List String
  host_dependencies : List String
  build_dependencies : List String
  test_dependencies : List String
  channels : List String
  build_command_dependencies : List Nat
deriving DecidableEq, Inhabited

/-- Modelled from the spec: `utils.variant_string` (utils.py is not under
src/).  It renders the three variant axis values into the slug used by
`BuildCommand.name` (spec section 3: a name derived from the recipe and the
variant). -/
def variant_string (python build_type mpi_type : String) : String :=
  python ++ "-" ++ build_type ++ "-" ++ mpi_type

/-- Python `str.replace` restricted to a single-character pattern and
replacement, which is how `BuildCommand.name` uses it; realised over the
character list so that it is kernel-computable. -/
def replaceChar (s : String) (a b : Char) : String :=
  String.mk (s.data.map (fun c => if c = a then b else c))

/-- `BuildCommand.name` (build_tree.py lines 72-83): recipe plus variant
slug, with `.` and `_` normalised to `-`.  The emptiness test mirrors
Python truthiness of `variant_string`. -/
def BuildCommand.name (bc : BuildCommand) : String :=
  let vs := variant_string bc.python bc.build_type bc.mpi_type
  let result := if vs = "" then bc.recipe else bc.recipe ++ "-" ++ vs
  replaceChar (replaceChar result '.' '-') '_' '-'

/-- A concrete build variant.  In the source a variant is the dict produced
by `utils.make_variants` with keys `python`, `build_type` and `mpi_type`. -/
structure Variant where
  python : String
  build_type : String
  mpi_type : String
deriving DecidableEq, Inhabited

/-- Modelled from the spec: the canonical string form `str(variant)` used as
dictionary key for the per-variant external dependencies (`utils.py` and the
dict rendering are not under src/; spec section 3 says a variant is used as a
dictionary key via its canonical string form). -/
def variantStr (v : Variant) : String :=
  "python=" ++ v.python ++ ";build_type=" ++ v.build_type ++ ";mpi_type=" ++ v.mpi_type

/-- Modelled from the spec: `utils.remove_version` (utils.py is not under
src/).  It strips a version qualifier from a dependency specifier, keeping
the bare package name; per spec section 8 the specifier `foo>=1.2` must
yield `foo`. -/
def remove_version (dep : String) : String :=
  String.mk (dep.data.takeWhile (fun c => c ≠ ' ' ∧ c ≠ '=' ∧ c ≠ '<' ∧ c ≠ '>' ∧ c ≠ '!'))

/-! ## Dependency linker (`_add_build_command_dependencies`, lines 158-189) -/

/-- Lookup in the association-list model of a Python dict: first match is
the most recent binding. -/
def pmGet (m : List (String × List Nat)) (k : String) : Option (List Nat) :=
  (m.find? (fun p => p.1 == k)).map Prod.snd

/-- Inner loop of the producer-map construction: for each package name of
one build command, prepend the command's global index to the name's entry
(`packages.update({package : [start_index + index] + packages.get(package, [])})`). -/
def addPackages (m : List (String × List Nat)) (gidx : Nat) (pkgs : List String) :
    List (String × List Nat) :=
  pkgs.foldl (fun m' p => (p, gidx :: ((pmGet m' p).getD [])) :: m') m

/-- The producer map of `_add_build_command_dependencies` (lines 170-175):
package name to list of global indices of the commands producing it,
most recent first. -/
def buildProducerMap (build_commands : List BuildCommand) (start_index : Nat) :
    List (String × List Nat) :=
  build_commands.enum.foldl (fun m p => addPackages m (start_index + p.1) p.2.packages) []

/-- The union of the four dependency sets of a build command with version
qualifiers stripped (lines 181-185); the set is modelled as a deduplicated
list. -/
def depNames (bc : BuildCommand) : List String :=
  ((bc.run_dependencies.map remove_version) ++ (bc.build_dependencies.map remove_version) ++
    (bc.host_dependencies.map remove_version) ++ (bc.test_dependencies.map remove_version)).dedup

/-- The dependency-index list computed for one build command (lines
179-189): for every dependency name present in the producer map, append all
of its producer indices except the command's own global index. -/
def commandDeps (pm : List (String × List Nat)) (self : Nat) (bc : BuildCommand) : List Nat :=
  (depNames bc).foldl
    (fun deps dep =>
      match pmGet pm dep with
      | some l => deps ++ l.filter (fun x => x ≠ self)
      | none => deps)
    []

/-- `_add_build_command_dependencies(build_commands, start_index)`: returns
the batch with each command's `build_command_dependencies` replaced by the
computed dependency-index list (the source mutates the commands in
place). -/
def add_build_command_dependencies (build_commands : List BuildCommand) (start_index : Nat) :
    List BuildCommand :=
  let pm := buildProducerMap build_commands start_index
  build_commands.enum.map
    (fun p => { p.2 with build_command_dependencies := commandDeps pm (start_index + p.1) p.2 })

/-! ## Cycle search (`find_all_cycles`, build_tree.py lines 366-381)

The source function recurses on a well-founded measure (the number of
in-range indices not yet on the current branch).  To keep the embedding
kernel-computable it is realised with a structurally recursive fuel
parameter; `tree.length + 1` fuel always suffices, and the theorem
`find_all_cycles_rec` below proves that the embedding satisfies exactly the
recurrence of the source, with no fuel in sight. -/

/-- Fuel-indexed realisation of `find_all_cycles`.  One step: extend the
branch with the current node; if the branch now repeats a node
(`len(current_branch) != len(set(current_branch))`), that branch is a cycle;
otherwise recurse into every dependency of the current node, concatenating
the results. -/
def facFuel (tree : List (List Nat)) : Nat → Nat → List Nat → List (List Nat)
  | 0, _, _ => []
  | fuel + 1, current, seen =>
    let current_branch := seen ++ [current]
    if current_branch.length ≠ current_branch.dedup.length then
      [current_branch]
    else
      ((tree.getD current []).map (fun d => facFuel tree fuel d current_branch)).flatten

/-- `find_all_cycles(tree, current, seen)`: all cycles discovered by the
depth-first search starting at `current` with branch prefix `seen` (the
Python default `seen=None` is the empty branch). -/
def find_all_cycles (tree : List (List Nat)) (current : Nat) (seen : List Nat) :
    List (List Nat) :=
  facFuel tree (tree.length + 1) current seen

/-- The well-founded measure of the source recursion: the number of
in-range nodes not yet on the current branch. -/
def facMeasure (tree : List (List Nat)) (seen : List Nat) : Nat :=
  ((Finset.range tree.length).filter (fun k => k ∉ seen)).card

/-- The dependency graph of a command list: index `i` maps to the
`build_command_dependencies` of command `i` (the `extract_build_tree` of
`_detect_cycle`, and the adjacency consulted by `_traverse_deps_tree`). -/
def graphOf (build_commands : List BuildCommand) : List (List Nat) :=
  build_commands.map (fun x => x.build_command_dependencies)

/-! ## Cycle detection (`BuildTree._detect_cycle`, lines 351-364) -/

/-- The accumulation loop of `_detect_cycle`: walk the start indices in
order, collecting the cycles found from each, and stop early as soon as at
least `max_cycles` cycles have been collected. -/
def collectCycles (tree : List (List Nat)) (max_cycles : Nat) :
    List Nat → List (List Nat) → List (List Nat)
  | [], cycles => cycles
  | start :: rest, cycles =>
    let cycles' := cycles ++ find_all_cycles tree start []
    if max_cycles ≤ cycles'.length then cycles'
    else collectCycles tree max_cycles rest cycles'

/-- The report string of `_detect_cycle` (lines 359-363): each cycle is the
chain of the `recipe` attributes of its commands joined by an arrow, one
cycle per line, at most `max_cycles` cycles shown, with a truncation notice
when more cycles were collected than shown. -/
def cyclePrint (build_commands : List BuildCommand) (cycles : List (List Nat))
    (max_cycles : Nat) : String :=
  let shown := cycles.take (min max_cycles cycles.length)
  let base := String.intercalate "\n"
    (shown.map (fun cyc =>
      String.intercalate " -> " (cyc.map (fun i => (build_commands.getD i default).recipe))))
  if max_cycles < cycles.length then
    base ++ "\n" ++ formatMsg "Cycles truncated after \x7b\x7d..." [toString max_cycles]
  else base

/-- `BuildTree._detect_cycle(max_cycles)`: run the cycle search from every
index in order and, if any cycle was found, produce the
`BUILD_TREE_CYCLE` error with the formatted report. -/
def detect_cycle (build_commands : List BuildCommand) (max_cycles : Nat) :
    Option OpenCEError :=
  let extract_build_tree := graphOf build_commands
  let cycles := collectCycles extract_build_tree max_cycles
    (List.range build_commands.length) []
  if cycles = [] then none
  else some (mkOpenCEError Error.BUILD_TREE_CYCLE [cyclePrint build_commands cycles max_cycles])

/-! ## BuildTree construction (`BuildTree.__init__`, lines 208-238)

The external collaborators of `_create_all_recipes` (environment files,
cloning, conda rendering) are summarised as one `Batch` per variant: the
build commands and external dependencies the collaborators returned for
that variant.  The constructor's own work — linking each batch at the
running offset, appending, recording the external dependencies under the
variant's string key, then detecting cycles — is embedded exactly. -/

/-- The result of `_create_all_recipes` for one variant. -/
structure Batch where
  variant : Variant
  recipes : List BuildCommand
  external_deps : List String
deriving DecidableEq, Inhabited

/-- The `BuildTree` state after construction: the linked build commands of
all variants, and the map from variant string keys to external
dependencies. -/
structure BuildTree where
  build_commands : List BuildCommand
  external_dependencies : List (String × List String)
deriving DecidableEq

/-- The per-variant loop of `BuildTree.__init__` (lines 229-237) restricted
to the build commands: link each variant batch with `start_index` equal to
the running length of `self.build_commands`, then append. -/
def assembleCommands (batches : List Batch) : List BuildCommand :=
  batches.foldl
    (fun acc b => acc ++ add_build_command_dependencies b.recipes acc.length) []

/-- The external-dependencies dict built by `BuildTree.__init__`
(`self._external_dependencies[str(variant)] = external_deps`); prepending
models dict assignment, the latest binding winning on lookup. -/
def assembleExternalDeps (batches : List Batch) : List (String × List String) :=
  batches.foldl (fun m b => (variantStr b.variant, b.external_deps) :: m) []

/-- `BuildTree.__init__` after the collaborators produced the per-variant
batches: link and append every batch, then run the cycle detector with its
default bound of 10; construction fails with the cycle error iff cycles
were found. -/
def buildTreeConstruct (batches : List Batch) : Except OpenCEError BuildTree :=
  let cmds := assembleCommands batches
  match detect_cycle cmds 10 with
  | some e => Except.error e
  | none => Except.ok ⟨cmds, assembleExternalDeps batches⟩

/-- `BuildTree.get_external_dependencies(variant)` (lines 347-349):
`self._external_dependencies.get(str(variant), [])`. -/
def get_external_dependencies (bt : BuildTree) (variant : Variant) : List String :=
  ((bt.external_dependencies.find? (fun p => p.1 == variantStr variant)).map Prod.snd).getD []

/-! ## Ordered traversal (`__iter__` / `_traverse_deps_tree`, lines 321-339)

`_traverse_deps_tree` is a generator recursing into each unseen
dependency's own dependency list before yielding it and marking it seen.
The loop over `deps` is embedded by `traverseLoop`; the recursive descent
into a dependency's adjacency list is the `descend` argument, realised by
`traverseF` with a fuel bound on the recursion depth.  The source has no
such bound and simply diverges on cyclic graphs; `none` marks divergence,
and fuel `tree.length` is proven sufficient for every acyclic in-bounds
graph, which is the only situation in which the source iterator is ever
run. -/

/-- One invocation of `_traverse_deps_tree(is_seen, deps)`: skip seen
entries; for an unseen entry, descend into its dependencies, yield it, mark
it seen, and continue the loop with the updated marker array. -/
def traverseLoop (tree : List (List Nat))
    (descend : List Bool → Nat → Option (List Bool × List Nat)) :
    List Bool → List Nat → Option (List Bool × List Nat)
  | is_seen, [] => some (is_seen, [])
  | is_seen, dep :: rest =>
    if is_seen.getD dep false then
      traverseLoop tree descend is_seen rest
    else
      match descend is_seen dep with
      | none => none
      | some (seen1, out1) =>
        match traverseLoop tree descend (seen1.set dep true) rest with
        | none => none
        | some (seen2, out2) => some (seen2, out1 ++ dep :: out2)

/-- Depth-bounded `_traverse_deps_tree`: descending into a dependency's
adjacency list consumes one unit of fuel. -/
def traverseF (tree : List (List Nat)) : Nat → List Bool → List Nat →
    Option (List Bool × List Nat)
  | 0, is_seen, deps => traverseLoop tree (fun _ _ => none) is_seen deps
  | fuel + 1, is_seen, deps =>
    traverseLoop tree (fun s dep => traverseF tree fuel s (tree.getD dep [])) is_seen deps

/-- `BuildTree.__iter__`: traverse all indices in graph order starting from
an all-false marker array, returning the sequence of yielded indices. -/
def buildTreeIterIdx (bt : BuildTree) : Option (List Nat) :=
  let n := bt.build_commands.length
  (traverseF (graphOf bt.build_commands) n (List.replicate n false) (List.range n)).map
    (fun r => r.2)

/-- `BuildTree.__iter__` as the generator of the yielded `BuildCommand`
values themselves (`yield self.build_commands[dep]`). -/
def buildTreeIter (bt : BuildTree) : Option (List BuildCommand) :=
  (buildTreeIterIdx bt).map (fun l => l.map (fun i => bt.build_commands.getD i default))

/-! ## Repository cloning (`_clone_repo`, lines 295-319) -/

/-- Python truthiness of an optional string (`if git_tag_from_config:`). -/
def pyTruthy : Option String → Bool
  | none => false
  | some s => s ≠ ""

/-- The tag-precedence resolution of `_clone_repo` (lines 304-309):
command-line tag first, then the package-specific tag, then the
environment-level tag. -/
def cloneGitTag (git_tag_for_env git_tag_from_config env_git_tag : Option String) :
    Option String :=
  match git_tag_for_env with
  | some t => some t
  | none => if pyTruthy git_tag_from_config then git_tag_from_config else env_git_tag

/-- The clone command string built by `_clone_repo` (lines 311-314). -/
def cloneCmd (git_tag : Option String) (git_url repo_dir : String) : String :=
  match git_tag with
  | none => "git clone " ++ git_url ++ " " ++ repo_dir
  | some t => "git clone -b " ++ t ++ " --single-branch " ++ git_url ++ " " ++ repo_dir

/-- `_clone_repo`: resolve the tag, build the command, run it through the
ambient `system` collaborator (`os.system`), and fail with `CLONE_REPO`
carrying the source URL iff the status is non-zero. -/
def clone_repo (system : String → Int)
    (git_tag_for_env git_tag_from_config env_git_tag : Option String)
    (git_url repo_dir : String) : Except OpenCEError Unit :=
  let clone_result := system
    (cloneCmd (cloneGitTag git_tag_for_env git_tag_from_config env_git_tag) git_url repo_dir)
  if clone_result ≠ 0 then Except.error (mkOpenCEError Error.CLONE_REPO [git_url])
  else Except.ok ()

/-- The per-package repository step of `_create_all_recipes` (lines
272-280): the fetcher is invoked only when the repository directory does
not already exist. -/
def ensure_repo (dir_exists : Bool) (system : String → Int)
    (git_tag_for_env git_tag_from_config env_git_tag : Option String)
    (git_url repo_dir : String) : Except OpenCEError Unit :=
  if dir_exists then Except.ok ()
  else clone_repo system git_tag_for_env git_tag_from_config env_git_tag git_url repo_dir

/-! ## Semantic notions used by the claims -/

/-- A walk in the dependency graph: consecutive elements are related by a
dependency edge (`b` is listed among the dependencies of `a`). -/
def IsWalk (tree : List (List Nat)) (w : List Nat) : Prop :=
  List.Chain' (fun a b => b ∈ tree.getD a []) w

/-- Node `y` is reachable from node `x` (by a possibly trivial walk). -/
def Reach (tree : List (List Nat)) (x y : Nat) : Prop :=
  ∃ w, IsWalk tree w ∧ w.head? = some x ∧ w.getLast? = some y

/-- A cycle is reachable from `s`: some walk starting at `s` revisits a
node. -/
def CycleReachableFrom (tree : List (List Nat)) (s : Nat) : Prop :=
  ∃ w, w.head? = some s ∧ IsWalk tree w ∧ ¬ w.Nodup

/-- The graph is acyclic: no walk revisits a node. -/
def Acyclic (tree : List (List Nat)) : Prop :=
  ∀ w, IsWalk tree w → w.Nodup

/-- Every dependency edge of the graph stays inside the graph. -/
def InBounds (tree : List (List Nat)) : Prop :=
  ∀ i j, j ∈ tree.getD i [] → j < tree.length

/-- The starting global index of batch `b` in the assembled build tree: the
total size of the preceding batches. -/
def batchStart (batches : List Batch) (b : Nat) : Nat :=
  ((batches.take b).map (fun x => x.recipes.length)).sum

/-- Whether `BuildTree` construction failed with the cycle error. -/
def isCycleError : Except OpenCEError BuildTree → Bool
  | Except.error e => decide (e.error = Error.BUILD_TREE_CYCLE)
  | Except.ok _ => false

/-- Recursive form of the per-batch assembly loop, used to reason about
`assembleCommands`: link each batch at the running offset and concatenate. -/
def assemblePieces (start : Nat) : List (List BuildCommand) → List BuildCommand
  | [] => []
  | r :: rs => add_build_command_dependencies r start ++ assemblePieces (start + r.length) rs

/-- The bundle of facts established about one run of `traverseLoop` /
`traverseF` on marker array `seen` and work list `deps`, producing marker
array `s` and yield sequence `out`. -/
structure TravSpec (tree : List (List Nat)) (seen s : List Bool) (deps out : List Nat) : Prop where
  len_eq : s.length = seen.length
  marks : ∀ j, s.getD j false = (seen.getD j false || decide (j ∈ out))
  fresh : ∀ j ∈ out, seen.getD j false = false
  nodup : out.Nodup
  covers : ∀ d ∈ deps, s.getD d false = true
  reaches : ∀ x ∈ out, ∃ d ∈ deps, Reach tree d x
  bounded : ∀ x ∈ out, x < tree.length
  depfirst : ∀ pre, pre <+: out → ∀ i ∈ pre, ∀ d ∈ tree.getD i [], seen.getD d false = true ∨ d ∈ pre

/-! ## Concrete inputs used by the witnesses -/

/-- A concrete variant. -/
def demoVariant : Variant := ⟨"3.8", "cpu", "openmpi"⟩

/-- A second concrete variant. -/
def demoVariant2 : Variant := ⟨"3.9", "cpu", "openmpi"⟩

/-- A build command with the given recipe, produced packages and run
dependencies. -/
def mkDemoCommand (recipe : String) (pkgs runs : List String) : BuildCommand :=
  ⟨recipe, "repo", pkgs, "3.8", "cpu", "openmpi", runs, [], [], [], [], []⟩

/-- Two acyclic batches: `beta` consumes the `a` produced by `alpha` in the
same batch; the second batch's `gamma` also produces `a` but is alone in
its batch. -/
def demoBatches : List Batch :=
  [⟨demoVariant, [mkDemoCommand "alpha" ["a"] [], mkDemoCommand "beta" ["b"] ["a"]], ["ext1"]⟩,
   ⟨demoVariant2, [mkDemoCommand "gamma" ["a"] []], []⟩]

/-- The build tree constructed from `demoBatches`. -/
def demoTreeBuilt : BuildTree := ⟨assembleCommands demoBatches, assembleExternalDeps demoBatches⟩

/-- One batch with a two-command dependency cycle; the recipes contain
underscores, so their raw `recipe` strings differ from their derived
names. -/
def demoCyclicBatches : List Batch :=
  [⟨demoVariant, [mkDemoCommand "a_b" ["p"] ["q"], mkDemoCommand "c_d" ["q"] ["p"]], []⟩]

/-- An eight-command batch: units 2 and 5 both produce `A`, unit 7 consumes
`A` through a versioned specifier, and unit 6 consumes a package it itself
produces. -/
def demoFanBatch : List BuildCommand :=
  [mkDemoCommand "r0" ["p0"] [], mkDemoCommand "r1" ["p1"] [],
   mkDemoCommand "r2" ["A"] [], mkDemoCommand "r3" ["p3"] [],
   mkDemoCommand "r4" ["p4"] [], mkDemoCommand "r5" ["A"] [],
   mkDemoCommand "r6" ["p6"] ["p6"], mkDemoCommand "r7" ["p7"] ["A >=1.0"]]

/-! ## Basic list helpers -/

theorem getD_set_self (s : List Bool) {i : Nat} (h : i < s.length) (b d : Bool) :
    (s.set i b).getD i d = b := by
  rw [List.getD_eq_getElem?_getD, List.getElem?_set_self h]
  rfl

theorem getD_set_ne (s : List Bool) {i j : Nat} (h : i ≠ j) (b d : Bool) :
    (s.set i b).getD j d = s.getD j d := by
  rw [List.getD_eq_getElem?_getD, List.getElem?_set_ne h, ← List.getD_eq_getElem?_getD]

theorem getD_replicate (n j : Nat) : (List.replicate n false).getD j false = false := by
  rw [List.getD_eq_getElem?_getD, List.getElem?_replicate]
  by_cases h : j < n <;> simp [h]

theorem getD_append {α} (a b : List α) (i : Nat) (d : α) :
    (a ++ b).getD i d = if i < a.length then a.getD i d else b.getD (i - a.length) d := by
  rw [List.getD_eq_getElem?_getD, List.getElem?_append]
  by_cases h : i < a.length <;> simp [h, List.getD_eq_getElem?_getD]

theorem prefix_append_cases {α} :
    ∀ (a b pre : List α), pre <+: a ++ b → pre <+: a ∨ ∃ q, pre = a ++ q ∧ q <+: b := by
  intro a
  induction a with
  | nil =>
    intro b pre h
    right
    exact ⟨pre, rfl, h⟩
  | cons x a' ih =>
    intro b pre h
    cases pre with
    | nil =>
      left
      exact List.nil_prefix
    | cons y pre' =>
      rw [List.cons_append, List.cons_prefix_cons] at h
      obtain ⟨rfl, h'⟩ := h
      rcases ih b pre' h' with h1 | ⟨q, rfl, hq⟩
      · left
        exact List.cons_prefix_cons.mpr ⟨rfl, h1⟩
      · right
        exact ⟨q, rfl, hq⟩

theorem length_eq_dedup_length_iff (l : List Nat) : l.length = l.dedup.length ↔ l.Nodup := by
  constructor
  · intro h
    exact List.dedup_eq_self.mp ((List.dedup_sublist l).eq_of_length h.symm)
  · intro h
    rw [List.dedup_eq_self.mpr h]

/-! ## Walks and reachability -/

theorem mem_getD_lt {tree : List (List Nat)} {current d : Nat} (hd : d ∈ tree.getD current []) :
    current < tree.length := by
  by_contra hge
  push_neg at hge
  rw [List.getD_eq_default _ _ hge] at hd
  exact absurd hd (List.not_mem_nil d)

theorem reach_refl (tree : List (List Nat)) (x : Nat) : Reach tree x x :=
  ⟨[x], List.chain'_singleton x, rfl, rfl⟩

theorem reach_cons {tree : List (List Nat)} {x d y : Nat} (hd : d ∈ tree.getD x [])
    (h : Reach tree d y) : Reach tree x y := by
  obtain ⟨w, hw, hhead, hlast⟩ := h
  cases w with
  | nil => exact absurd hhead (by simp)
  | cons a t =>
    rw [List.head?_cons] at hhead
    have ha : d = a := (Option.some.inj hhead).symm
    subst ha
    refine ⟨x :: d :: t, ?_, rfl, ?_⟩
    · rw [IsWalk, List.chain'_cons]
      exact ⟨hd, hw⟩
    · rw [List.getLast?_cons_cons]
      exact hlast

theorem acyclic_no_back {tree : List (List Nat)} (hacy : Acyclic tree) {x d : Nat}
    (hd : d ∈ tree.getD x []) (h : Reach tree d x) : False := by
  obtain ⟨w, hw, hhead, hlast⟩ := h
  have hne : w ≠ [] := by
    intro heq
    rw [heq] at hhead
    exact absurd hhead (by simp)
  have hmem : x ∈ w := by
    rw [List.getLast?_eq_getLast w hne] at hlast
    injection hlast with hlast
    rw [← hlast]
    exact List.getLast_mem hne
  have hwalk : IsWalk tree (x :: w) := by
    rw [IsWalk, List.chain'_cons']
    refine ⟨?_, hw⟩
    intro b hb
    rw [hhead] at hb
    have : d = b := by injection hb
    rw [← this]
    exact hd
  have := hacy _ hwalk
  rw [List.nodup_cons] at this
  exact this.1 hmem

/-! ## Cycle-search theory -/

theorem facMeasure_le (tree : List (List Nat)) (seen : List Nat) :
    facMeasure tree seen ≤ tree.length := by
  calc facMeasure tree seen ≤ (Finset.range tree.length).card := Finset.card_filter_le _ _
  _ = tree.length := Finset.card_range _

theorem facMeasure_lt (tree : List (List Nat)) {current : Nat} {seen : List Nat}
    (hlt : current < tree.length) (hnin : current ∉ seen) :
    facMeasure tree (seen ++ [current]) < facMeasure tree seen := by
  apply Finset.card_lt_card
  constructor
  · intro k hk
    rw [Finset.mem_filter] at hk ⊢
    exact ⟨hk.1, fun hmem => hk.2 (List.mem_append_left _ hmem)⟩
  · intro hsub
    have hc : current ∈ (Finset.range tree.length).filter (fun k => k ∉ seen) := by
      rw [Finset.mem_filter, Finset.mem_range]
      exact ⟨hlt, hnin⟩
    have hc2 := hsub hc
    rw [Finset.mem_filter] at hc2
    exact hc2.2 (List.mem_append_right _ (List.mem_singleton_self current))

theorem nodup_branch_not_mem {seen : List Nat} {current : Nat}
    (h : (seen ++ [current]).Nodup) : current ∉ seen := by
  rw [List.nodup_append] at h
  exact fun hmem => h.2.2 hmem (List.mem_singleton_self current)

theorem facFuel_congr (tree : List (List Nat)) :
    ∀ f1 f2 current seen, facMeasure tree seen < f1 → facMeasure tree seen < f2 →
      facFuel tree f1 current seen = facFuel tree f2 current seen := by
  intro f1
  induction f1 with
  | zero =>
    intro f2 current seen h1 _
    exact absurd h1 (Nat.not_lt_zero _)
  | succ m ih =>
    intro f2 current seen h1 h2
    cases f2 with
    | zero => exact absurd h2 (Nat.not_lt_zero _)
    | succ k =>
      simp only [facFuel]
      by_cases hc : (seen ++ [current]).length ≠ (seen ++ [current]).dedup.length
      · rw [if_pos hc, if_pos hc]
      · rw [if_neg hc, if_neg hc]
        congr 1
        apply List.map_congr_left
        intro d hd
        have hnd : (seen ++ [current]).Nodup := (length_eq_dedup_length_iff _).mp (not_not.mp hc)
        have hlt := facMeasure_lt tree (mem_getD_lt hd) (nodup_branch_not_mem hnd)
        exact ih k d (seen ++ [current]) (lt_of_lt_of_le hlt (Nat.lt_succ_iff.mp h1))
          (lt_of_lt_of_le hlt (Nat.lt_succ_iff.mp h2))

theorem find_all_cycles_rec (tree : List (List Nat)) (current : Nat) (seen : List Nat) :
    find_all_cycles tree current seen =
      if (seen ++ [current]).length ≠ (seen ++ [current]).dedup.length then [seen ++ [current]]
      else ((tree.getD current []).map (fun d => find_all_cycles tree d (seen ++ [current]))).flatten := by
  show facFuel tree (tree.length + 1) current seen = _
  simp only [facFuel]
  by_cases hc : (seen ++ [current]).length ≠ (seen ++ [current]).dedup.length
  · rw [if_pos hc, if_pos hc]
  · rw [if_neg hc, if_neg hc]
    congr 1
    apply List.map_congr_left
    intro d hd
    have hnd : (seen ++ [current]).Nodup := (length_eq_dedup_length_iff _).mp (not_not.mp hc)
    have hlt := facMeasure_lt tree (mem_getD_lt hd) (nodup_branch_not_mem hnd)
    exact facFuel_congr tree _ _ d (seen ++ [current])
      (lt_of_lt_of_le hlt (facMeasure_le tree seen))
      (Nat.lt_succ_of_le (facMeasure_le tree _))

theorem facFuel_mem {tree : List (List Nat)} :
    ∀ {fuel current seen c}, c ∈ facFuel tree fuel current seen →
      ∃ w, c = seen ++ w ∧ w.head? = some current ∧ IsWalk tree w ∧ ¬ c.Nodup := by
  intro fuel
  induction fuel with
  | zero =>
    intro current seen c hc
    exact absurd hc (List.not_mem_nil c)
  | succ m ih =>
    intro current seen c hc
    simp only [facFuel] at hc
    by_cases hcond : (seen ++ [current]).length ≠ (seen ++ [current]).dedup.length
    · rw [if_pos hcond, List.mem_singleton] at hc
      subst hc
      refine ⟨[current], rfl, rfl, List.chain'_singleton current, ?_⟩
      intro hnd
      exact hcond ((length_eq_dedup_length_iff _).mpr hnd)
    · rw [if_neg hcond, List.mem_flatten] at hc
      obtain ⟨l, hl, hcl⟩ := hc
      rw [List.mem_map] at hl
      obtain ⟨d, hd, rfl⟩ := hl
      obtain ⟨w, rfl, hhead, hwalk, hnd⟩ := ih hcl
      refine ⟨current :: w, by simp, rfl, ?_, hnd⟩
      rw [IsWalk, List.chain'_cons']
      refine ⟨?_, hwalk⟩
      intro b hb
      rw [hhead] at hb
      have hb' : d = b := Option.some.inj hb
      rw [← hb']
      exact hd

theorem facFuel_ne_nil {tree : List (List Nat)} :
    ∀ {fuel current seen} (w : List Nat), facMeasure tree seen < fuel →
      w.head? = some current → IsWalk tree w → ¬ (seen ++ w).Nodup →
      facFuel tree fuel current seen ≠ [] := by
  intro fuel
  induction fuel with
  | zero =>
    intro current seen w h
    exact absurd h (Nat.not_lt_zero _)
  | succ m ih =>
    intro current seen w hm hhead hwalk hnd
    simp only [facFuel]
    by_cases hcond : (seen ++ [current]).length ≠ (seen ++ [current]).dedup.length
    · rw [if_pos hcond]
      exact List.cons_ne_nil _ _
    · rw [if_neg hcond]
      have hcb : (seen ++ [current]).Nodup := (length_eq_dedup_length_iff _).mp (not_not.mp hcond)
      cases w with
      | nil => exact absurd hhead (by simp)
      | cons a w' =>
        rw [List.head?_cons] at hhead
        have ha : current = a := (Option.some.inj hhead).symm
        subst ha
        cases w' with
        | nil => exact absurd hcb hnd
        | cons d t =>
          have hsplit := List.chain'_cons.mp hwalk
          have hcur : current < tree.length := mem_getD_lt hsplit.1
          have hm' : facMeasure tree (seen ++ [current]) < m :=
            lt_of_lt_of_le (facMeasure_lt tree hcur (nodup_branch_not_mem hcb))
              (Nat.lt_succ_iff.mp hm)
          have hnd' : ¬ ((seen ++ [current]) ++ (d :: t)).Nodup := by
            rw [List.append_assoc]
            exact hnd
          have hne := ih (d :: t) hm' rfl hsplit.2 hnd'
          intro hempty
          apply hne
          rw [List.flatten_eq_nil_iff] at hempty
          exact hempty _ (List.mem_map_of_mem _ hsplit.1)

theorem find_all_cycles_ne_nil_iff (tree : List (List Nat)) (current : Nat) (seen : List Nat) :
    find_all_cycles tree current seen ≠ [] ↔
      ∃ w, w.head? = some current ∧ IsWalk tree w ∧ ¬ (seen ++ w).Nodup := by
  constructor
  · intro h
    obtain ⟨c, hc⟩ := List.exists_mem_of_ne_nil _ h
    obtain ⟨w, rfl, hh, hw, hnd⟩ := facFuel_mem hc
    exact ⟨w, hh, hw, hnd⟩
  · rintro ⟨w, hh, hw, hnd⟩
    exact facFuel_ne_nil w (Nat.lt_succ_of_le (facMeasure_le tree seen)) hh hw hnd

theorem find_all_cycles_sound {tree : List (List Nat)} {current : Nat} {seen c : List Nat}
    (hc : c ∈ find_all_cycles tree current seen) :
    ∃ w, c = seen ++ w ∧ w.head? = some current ∧ IsWalk tree w ∧ ¬ c.Nodup :=
  facFuel_mem hc

/-! ## Cycle detection theory -/

theorem graphOf_length (cmds : List BuildCommand) : (graphOf cmds).length = cmds.length :=
  List.length_map _ _

theorem collectCycles_mem {tree : List (List Nat)} {m : Nat} :
    ∀ {starts : List Nat} {acc : List (List Nat)} {c : List Nat},
      c ∈ collectCycles tree m starts acc →
      c ∈ acc ∨ ∃ s ∈ starts, c ∈ find_all_cycles tree s [] := by
  intro starts
  induction starts with
  | nil =>
    intro acc c hc
    exact Or.inl hc
  | cons s rest ih =>
    intro acc c hc
    simp only [collectCycles] at hc
    by_cases hb : m ≤ (acc ++ find_all_cycles tree s []).length
    · rw [if_pos hb, List.mem_append] at hc
      rcases hc with h | h
      · exact Or.inl h
      · exact Or.inr ⟨s, List.mem_cons_self s rest, h⟩
    · rw [if_neg hb] at hc
      rcases ih hc with h | ⟨s', hs', h⟩
      · rw [List.mem_append] at h
        rcases h with h | h
        · exact Or.inl h
        · exact Or.inr ⟨s, List.mem_cons_self s rest, h⟩
      · exact Or.inr ⟨s', List.mem_cons_of_mem s hs', h⟩

theorem collectCycles_ne_nil_iff {tree : List (List Nat)} {m : Nat} (hm : 0 < m) :
    ∀ {starts : List Nat} {acc : List (List Nat)},
      collectCycles tree m starts acc ≠ [] ↔
        acc ≠ [] ∨ ∃ s ∈ starts, find_all_cycles tree s [] ≠ [] := by
  intro starts
  induction starts with
  | nil =>
    intro acc
    simp only [collectCycles]
    constructor
    · exact Or.inl
    · rintro (h | ⟨s, hs, _⟩)
      · exact h
      · exact absurd hs (List.not_mem_nil s)
  | cons s rest ih =>
    intro acc
    simp only [collectCycles]
    by_cases hb : m ≤ (acc ++ find_all_cycles tree s []).length
    · rw [if_pos hb]
      constructor
      · intro h
        by_cases hacc : acc = []
        · subst hacc
          rw [List.nil_append] at h
          exact Or.inr ⟨s, List.mem_cons_self s rest, h⟩
        · exact Or.inl hacc
      · intro _ hnil
        rw [hnil] at hb
        simp only [List.length_nil] at hb
        omega
    · rw [if_neg hb, ih]
      constructor
      · rintro (h | ⟨s', hs', h⟩)
        · by_cases hacc : acc = []
          · subst hacc
            rw [List.nil_append] at h
            exact Or.inr ⟨s, List.mem_cons_self s rest, h⟩
          · exact Or.inl hacc
        · exact Or.inr ⟨s', List.mem_cons_of_mem s hs', h⟩
      · rintro (h | ⟨s', hs', h⟩)
        · left
          intro hnil
          rw [List.append_eq_nil] at hnil
          exact h hnil.1
        · rw [List.mem_cons] at hs'
          rcases hs' with rfl | hs'
          · left
            intro hnil
            rw [List.append_eq_nil] at hnil
            exact h hnil.2
          · exact Or.inr ⟨s', hs', h⟩

theorem cycleReachable_head_lt {tree : List (List Nat)} {s : Nat}
    (h : CycleReachableFrom tree s) : s < tree.length := by
  obtain ⟨w, hhead, hwalk, hnd⟩ := h
  cases w with
  | nil => exact absurd hhead (by simp)
  | cons a t =>
    rw [List.head?_cons] at hhead
    have ha : s = a := (Option.some.inj hhead).symm
    subst ha
    cases t with
    | nil => exact absurd (List.nodup_singleton s) hnd
    | cons b t' => exact mem_getD_lt (List.chain'_cons.mp hwalk).1

theorem acyclic_iff_no_cycle (tree : List (List Nat)) :
    Acyclic tree ↔ ∀ s, ¬ CycleReachableFrom tree s := by
  constructor
  · rintro h s ⟨w, hh, hw, hnd⟩
    exact hnd (h w hw)
  · intro h w hw
    by_contra hnd
    cases w with
    | nil => exact hnd List.nodup_nil
    | cons a t => exact h a ⟨a :: t, rfl, hw, hnd⟩

theorem detect_cycle_eq_none_iff (cmds : List BuildCommand) :
    detect_cycle cmds 10 = none ↔
      ∀ s ∈ List.range cmds.length, find_all_cycles (graphOf cmds) s [] = [] := by
  simp only [detect_cycle]
  by_cases hc : collectCycles (graphOf cmds) 10 (List.range cmds.length) [] = []
  · rw [if_pos hc]
    constructor
    · intro _ s hs
      by_contra hne
      exact (collectCycles_ne_nil_iff (by norm_num)).mpr (Or.inr ⟨s, hs, hne⟩) hc
    · intro _
      rfl
  · rw [if_neg hc]
    constructor
    · intro h
      exact absurd h (by simp)
    · intro hall
      exfalso
      rcases (collectCycles_ne_nil_iff (by norm_num)).mp hc with h | ⟨s, hs, hne⟩
      · exact h rfl
      · exact hne (hall s hs)

theorem detect_cycle_eq_some (cmds : List BuildCommand)
    (h : collectCycles (graphOf cmds) 10 (List.range cmds.length) [] ≠ []) :
    detect_cycle cmds 10 = some (mkOpenCEError Error.BUILD_TREE_CYCLE
      [cyclePrint cmds (collectCycles (graphOf cmds) 10 (List.range cmds.length) []) 10]) := by
  simp only [detect_cycle]
  rw [if_neg h]

theorem construct_ok_elim {batches : List Batch} {bt : BuildTree}
    (h : buildTreeConstruct batches = Except.ok bt) :
    bt = ⟨assembleCommands batches, assembleExternalDeps batches⟩ ∧
      detect_cycle (assembleCommands batches) 10 = none := by
  simp only [buildTreeConstruct] at h
  split at h
  · exact absurd h (by simp)
  · exact ⟨(Except.ok.inj h).symm, by assumption⟩

theorem construct_ok_acyclic {batches : List Batch} {bt : BuildTree}
    (h : buildTreeConstruct batches = Except.ok bt) : Acyclic (graphOf bt.build_commands) := by
  obtain ⟨rfl, hdet⟩ := construct_ok_elim h
  rw [acyclic_iff_no_cycle]
  intro s hs
  have hlt := cycleReachable_head_lt hs
  rw [graphOf_length] at hlt
  have hnil := (detect_cycle_eq_none_iff _).mp hdet s (List.mem_range.mpr hlt)
  obtain ⟨w, hh, hw, hnd⟩ := hs
  exact (find_all_cycles_ne_nil_iff _ s []).mpr ⟨w, hh, hw, by simpa using hnd⟩ hnil

/-! ## Dependency-linker theory -/

theorem pmGet_cons (q : String) (v : List Nat) (m : List (String × List Nat)) (p : String) :
    pmGet ((q, v) :: m) p = if q = p then some v else pmGet m p := by
  by_cases h : q = p
  · subst h
    rw [if_pos rfl]
    simp only [pmGet]
    rw [List.find?_cons_of_pos _ (by simp)]
    rfl
  · rw [if_neg h]
    simp only [pmGet]
    rw [List.find?_cons_of_neg _ (by simp [h])]

theorem mem_optGetD {o : Option (List Nat)} {j : Nat} :
    j ∈ o.getD [] ↔ ∃ l, o = some l ∧ j ∈ l := by
  cases o <;> simp

theorem mem_pmGetD_addPackages (gidx : Nat) :
    ∀ (pkgs : List String) (m : List (String × List Nat)) (p : String) (j : Nat),
      j ∈ (pmGet (addPackages m gidx pkgs) p).getD [] ↔
        (p ∈ pkgs ∧ j = gidx) ∨ j ∈ (pmGet m p).getD [] := by
  intro pkgs
  induction pkgs with
  | nil =>
    intro m p j
    simp [addPackages]
  | cons q rest ih =>
    intro m p j
    have hstep : addPackages m gidx (q :: rest) =
        addPackages ((q, gidx :: ((pmGet m q).getD [])) :: m) gidx rest := rfl
    rw [hstep, ih, pmGet_cons]
    by_cases h : q = p
    · subst h
      rw [if_pos rfl]
      simp only [Option.getD_some, List.mem_cons]
      constructor
      · rintro (⟨hp, rfl⟩ | rfl | hj)
        · exact Or.inl ⟨Or.inr hp, rfl⟩
        · exact Or.inl ⟨by simp, rfl⟩
        · exact Or.inr hj
      · rintro (⟨_, rfl⟩ | hj)
        · exact Or.inr (Or.inl rfl)
        · exact Or.inr (Or.inr hj)
    · rw [if_neg h]
      simp only [List.mem_cons]
      constructor
      · rintro (⟨hp, rfl⟩ | hj)
        · exact Or.inl ⟨Or.inr hp, rfl⟩
        · exact Or.inr hj
      · rintro (⟨hpq | hp, rfl⟩ | hj)
        · exact absurd hpq.symm h
        · exact Or.inl ⟨hp, rfl⟩
        · exact Or.inr hj

theorem mem_pmGet_pmGo (start : Nat) :
    ∀ (cs : List BuildCommand) (t : Nat) (m : List (String × List Nat)) (p : String) (j : Nat),
      j ∈ (pmGet ((List.enumFrom t cs).foldl
          (fun m' q => addPackages m' (start + q.1) q.2.packages) m) p).getD [] ↔
        (∃ k, k < cs.length ∧ j = start + t + k ∧ p ∈ (cs.getD k default).packages) ∨
          j ∈ (pmGet m p).getD [] := by
  intro cs
  induction cs with
  | nil =>
    intro t m p j
    simp [List.enumFrom]
  | cons c rest ih =>
    intro t m p j
    have hstep : List.enumFrom t (c :: rest) = (t, c) :: List.enumFrom (t + 1) rest := rfl
    rw [hstep, List.foldl_cons, ih (t + 1) (addPackages m (start + t) c.packages) p j,
      mem_pmGetD_addPackages]
    constructor
    · rintro (⟨k, hk, rfl, hp⟩ | ⟨hp, rfl⟩ | hj)
      · refine Or.inl ⟨k + 1, by simp only [List.length_cons]; omega, by omega, ?_⟩
        rw [List.getD_cons_succ]
        exact hp
      · exact Or.inl ⟨0, by simp only [List.length_cons]; omega, by omega,
          by rw [List.getD_cons_zero]; exact hp⟩
      · exact Or.inr hj
    · rintro (⟨k, hk, rfl, hp⟩ | hj)
      · cases k with
        | zero =>
          refine Or.inr (Or.inl ⟨?_, by omega⟩)
          rw [List.getD_cons_zero] at hp
          exact hp
        | succ k' =>
          refine Or.inl ⟨k', by simp only [List.length_cons] at hk; omega, by omega, ?_⟩
          rw [List.getD_cons_succ] at hp
          exact hp
      · exact Or.inr (Or.inr hj)

theorem mem_buildProducerMap (cmds : List BuildCommand) (start : Nat) (p : String) (j : Nat) :
    j ∈ (pmGet (buildProducerMap cmds start) p).getD [] ↔
      ∃ k, k < cmds.length ∧ j = start + k ∧ p ∈ (cmds.getD k default).packages := by
  have hgo := mem_pmGet_pmGo start cmds 0 [] p j
  have hempty : (pmGet ([] : List (String × List Nat)) p).getD [] = [] := rfl
  rw [hempty] at hgo
  simp only [List.not_mem_nil, or_false, Nat.add_zero] at hgo
  exact hgo

theorem mem_commandDeps_fold :
    ∀ (names : List String) (pm : List (String × List Nat)) (self : Nat) (acc : List Nat)
      (j : Nat),
      j ∈ names.foldl (fun deps dep =>
          match pmGet pm dep with
          | some l => deps ++ l.filter (fun x => x ≠ self)
          | none => deps) acc ↔
        j ∈ acc ∨ ∃ p ∈ names, ∃ l, pmGet pm p = some l ∧ j ∈ l ∧ j ≠ self := by
  intro names
  induction names with
  | nil =>
    intro pm self acc j
    simp
  | cons q rest ih =>
    intro pm self acc j
    rw [List.foldl_cons, ih]
    cases hq : pmGet pm q with
    | none =>
      simp only [List.mem_cons]
      constructor
      · rintro (hj | ⟨p, hp, l, hl, hjl, hne⟩)
        · exact Or.inl hj
        · exact Or.inr ⟨p, Or.inr hp, l, hl, hjl, hne⟩
      · rintro (hj | ⟨p, rfl | hp, l, hl, hjl, hne⟩)
        · exact Or.inl hj
        · rw [hq] at hl
          exact absurd hl (by simp)
        · exact Or.inr ⟨p, hp, l, hl, hjl, hne⟩
    | some l =>
      simp only [List.mem_append, List.mem_filter, List.mem_cons, decide_eq_true_eq]
      constructor
      · rintro ((hj | ⟨hjl, hne⟩) | ⟨p, hp, l', hl', hjl', hne'⟩)
        · exact Or.inl hj
        · exact Or.inr ⟨q, Or.inl rfl, l, hq, hjl, hne⟩
        · exact Or.inr ⟨p, Or.inr hp, l', hl', hjl', hne'⟩
      · rintro (hj | ⟨p, rfl | hp, l', hl', hjl', hne'⟩)
        · exact Or.inl (Or.inl hj)
        · rw [hq] at hl'
          have : l = l' := Option.some.inj hl'
          subst this
          exact Or.inl (Or.inr ⟨hjl', hne'⟩)
        · exact Or.inr ⟨p, hp, l', hl', hjl', hne'⟩

theorem mem_commandDeps (pm : List (String × List Nat)) (self : Nat) (bc : BuildCommand)
    (j : Nat) :
    j ∈ commandDeps pm self bc ↔
      ∃ p ∈ depNames bc, ∃ l, pmGet pm p = some l ∧ j ∈ l ∧ j ≠ self := by
  have h := mem_commandDeps_fold (depNames bc) pm self [] j
  simp only [List.not_mem_nil, false_or] at h
  exact h

theorem add_deps_length (cmds : List BuildCommand) (start : Nat) :
    (add_build_command_dependencies cmds start).length = cmds.length := by
  simp [add_build_command_dependencies, List.enum_length]

theorem add_deps_getD (cmds : List BuildCommand) (start : Nat) {i : Nat} (hi : i < cmds.length) :
    (add_build_command_dependencies cmds start).getD i default =
      { cmds.getD i default with
        build_command_dependencies :=
          commandDeps (buildProducerMap cmds start) (start + i) (cmds.getD i default) } := by
  have hlen : i < (add_build_command_dependencies cmds start).length := by
    rw [add_deps_length]
    exact hi
  rw [List.getD_eq_getElem?_getD, List.getElem?_eq_getElem hlen, Option.getD_some,
    List.getD_eq_getElem?_getD, List.getElem?_eq_getElem hi, Option.getD_some]
  simp only [add_build_command_dependencies, List.getElem_map, List.getElem_enum]

theorem mem_add_deps (cmds : List BuildCommand) (start : Nat) {i : Nat} (hi : i < cmds.length)
    (j : Nat) :
    j ∈ ((add_build_command_dependencies cmds start).getD i default).build_command_dependencies ↔
      ∃ p ∈ depNames (cmds.getD i default), ∃ k, k < cmds.length ∧ j = start + k ∧
        p ∈ (cmds.getD k default).packages ∧ j ≠ start + i := by
  rw [add_deps_getD cmds start hi]
  show j ∈ commandDeps (buildProducerMap cmds start) (start + i) (cmds.getD i default) ↔ _
  rw [mem_commandDeps]
  constructor
  · rintro ⟨p, hp, l, hl, hjl, hne⟩
    have hmem : j ∈ (pmGet (buildProducerMap cmds start) p).getD [] := by
      rw [hl]
      exact hjl
    rw [mem_buildProducerMap] at hmem
    obtain ⟨k, hk, rfl, hpk⟩ := hmem
    exact ⟨p, hp, k, hk, rfl, hpk, hne⟩
  · rintro ⟨p, hp, k, hk, rfl, hpk, hne⟩
    have hmem : (start + k) ∈ (pmGet (buildProducerMap cmds start) p).getD [] := by
      rw [mem_buildProducerMap]
      exact ⟨k, hk, rfl, hpk⟩
    rw [mem_optGetD] at hmem
    obtain ⟨l, hl, hjl⟩ := hmem
    exact ⟨p, hp, l, hl, hjl, hne⟩

theorem linked_deps_bound (cmds : List BuildCommand) (start : Nat) {i j : Nat}
    (hi : i < cmds.length)
    (hj : j ∈ ((add_build_command_dependencies cmds start).getD i
      default).build_command_dependencies) :
    start ≤ j ∧ j < start + cmds.length := by
  rw [mem_add_deps cmds start hi] at hj
  obtain ⟨p, hp, k, hk, rfl, hpk, hne⟩ := hj
  omega

/-! ## Assembly theory -/

theorem graphOf_getD {cmds : List BuildCommand} {i : Nat} (hi : i < cmds.length) :
    (graphOf cmds).getD i [] = (cmds.getD i default).build_command_dependencies := by
  rw [List.getD_eq_getElem?_getD, List.getD_eq_getElem?_getD,
    List.getElem?_eq_getElem (by rw [graphOf_length]; exact hi), List.getElem?_eq_getElem hi,
    Option.getD_some, Option.getD_some]
  simp only [graphOf, List.getElem_map]

theorem graphOf_getD_nil {cmds : List BuildCommand} {i : Nat} (hi : cmds.length ≤ i) :
    (graphOf cmds).getD i [] = [] :=
  List.getD_eq_default _ _ (by rw [graphOf_length]; exact hi)

theorem assemble_go (batches : List Batch) :
    ∀ acc : List BuildCommand,
      batches.foldl (fun a b => a ++ add_build_command_dependencies b.recipes a.length) acc =
        acc ++ assemblePieces acc.length (batches.map (fun b => b.recipes)) := by
  induction batches with
  | nil =>
    intro acc
    simp [assemblePieces]
  | cons b rest ih =>
    intro acc
    rw [List.foldl_cons, ih, List.map_cons]
    have hlen : (acc ++ add_build_command_dependencies b.recipes acc.length).length
        = acc.length + b.recipes.length := by
      rw [List.length_append, add_deps_length]
    rw [hlen, List.append_assoc]
    rfl

theorem assembleCommands_eq (batches : List Batch) :
    assembleCommands batches = assemblePieces 0 (batches.map (fun b => b.recipes)) := by
  have h := assemble_go batches []
  simpa using h

theorem assemblePieces_length : ∀ (rs : List (List BuildCommand)) (start : Nat),
    (assemblePieces start rs).length = (rs.map List.length).sum := by
  intro rs
  induction rs with
  | nil =>
    intro start
    rfl
  | cons r rest ih =>
    intro start
    simp [assemblePieces, add_deps_length, ih]

theorem assemblePieces_getD : ∀ (rs : List (List BuildCommand)) (start b : Nat),
    b < rs.length → ∀ i, i < (rs.getD b []).length →
      (assemblePieces start rs).getD (((rs.take b).map List.length).sum + i) default =
        (add_build_command_dependencies (rs.getD b [])
          (start + ((rs.take b).map List.length).sum)).getD i default := by
  intro rs
  induction rs with
  | nil =>
    intro start b hb
    exact absurd hb (by simp)
  | cons r rest ih =>
    intro start b hb i hi
    cases b with
    | zero =>
      simp only [List.take_zero, List.map_nil, List.sum_nil, Nat.zero_add, Nat.add_zero]
      rw [List.getD_cons_zero] at hi ⊢
      show (add_build_command_dependencies r start ++
        assemblePieces (start + r.length) rest).getD i default = _
      rw [getD_append, if_pos (by rw [add_deps_length]; exact hi)]
    | succ b' =>
      rw [List.getD_cons_succ] at hi ⊢
      have htake : ((List.take (b' + 1) (r :: rest)).map List.length).sum
          = r.length + ((rest.take b').map List.length).sum := by
        simp [List.take_succ_cons]
      rw [htake]
      show (add_build_command_dependencies r start ++
        assemblePieces (start + r.length) rest).getD
          (r.length + ((rest.take b').map List.length).sum + i) default = _
      rw [getD_append, if_neg (by rw [add_deps_length]; omega)]
      have hidx : r.length + ((rest.take b').map List.length).sum + i
          - (add_build_command_dependencies r start).length
          = ((rest.take b').map List.length).sum + i := by
        rw [add_deps_length]
        omega
      rw [hidx, ih (start + r.length) b' (by simp only [List.length_cons] at hb; omega) i hi]
      have harith : start + r.length + ((rest.take b').map List.length).sum
          = start + (r.length + ((rest.take b').map List.length).sum) := by omega
      rw [harith]

theorem assemblePieces_bound : ∀ (rs : List (List BuildCommand)) (start i j : Nat),
    j ∈ ((assemblePieces start rs).getD i default).build_command_dependencies →
      i < (assemblePieces start rs).length →
      start ≤ j ∧ j < start + (assemblePieces start rs).length := by
  intro rs
  induction rs with
  | nil =>
    intro start i j _ hi
    exact absurd hi (by simp [assemblePieces])
  | cons r rest ih =>
    intro start i j hj hi
    have hunf : assemblePieces start (r :: rest) = add_build_command_dependencies r start ++
        assemblePieces (start + r.length) rest := rfl
    rw [hunf] at hj hi ⊢
    rw [List.length_append, add_deps_length] at hi ⊢
    by_cases hlt : i < (add_build_command_dependencies r start).length
    · rw [getD_append, if_pos hlt] at hj
      have hir : i < r.length := by rw [add_deps_length] at hlt; exact hlt
      have hb := linked_deps_bound r start hir hj
      omega
    · rw [getD_append, if_neg hlt] at hj
      rw [add_deps_length] at hlt hj
      have hi' : i - r.length < (assemblePieces (start + r.length) rest).length := by omega
      have hb := ih (start + r.length) (i - r.length) j hj hi'
      omega

theorem assembled_inBounds (batches : List Batch) :
    InBounds (graphOf (assembleCommands batches)) := by
  intro i j hj
  rw [graphOf_length]
  by_cases hi : i < (assembleCommands batches).length
  · rw [graphOf_getD hi] at hj
    rw [assembleCommands_eq] at hj hi
    have hb := assemblePieces_bound (batches.map (fun b => b.recipes)) 0 i j hj hi
    rw [assembleCommands_eq]
    omega
  · rw [graphOf_getD_nil (le_of_not_lt hi)] at hj
    exact absurd hj (List.not_mem_nil j)

/-! ## Traversal theory -/

theorem traverseLoop_spec (tree : List (List Nat)) (hacy : Acyclic tree)
    (descend : List Bool → Nat → Option (List Bool × List Nat))
    (hdescend : ∀ s1 dep s2 o, s1.length = tree.length → dep < tree.length →
      descend s1 dep = some (s2, o) → TravSpec tree s1 s2 (tree.getD dep []) o) :
    ∀ (deps : List Nat) (seen s : List Bool) (out : List Nat),
      seen.length = tree.length → (∀ d ∈ deps, d < tree.length) →
      traverseLoop tree descend seen deps = some (s, out) →
      TravSpec tree seen s deps out := by
  intro deps
  induction deps with
  | nil =>
    intro seen s out hlen hdeps heq
    simp only [traverseLoop, Option.some.injEq, Prod.mk.injEq] at heq
    obtain ⟨rfl, rfl⟩ := heq
    refine ⟨rfl, ?_, ?_, List.nodup_nil, ?_, ?_, ?_, ?_⟩
    · intro j
      simp
    · intro j hj
      exact absurd hj (List.not_mem_nil j)
    · intro d hd
      exact absurd hd (List.not_mem_nil d)
    · intro x hx
      exact absurd hx (List.not_mem_nil x)
    · intro x hx
      exact absurd hx (List.not_mem_nil x)
    · intro pre hpre
      rw [List.prefix_nil] at hpre
      subst hpre
      intro i hi
      exact absurd hi (List.not_mem_nil i)
  | cons dep rest ih =>
    intro seen s out hlen hdeps heq
    have hdep : dep < tree.length := hdeps dep (List.mem_cons_self dep rest)
    have hrest : ∀ d ∈ rest, d < tree.length := fun d hd => hdeps d (List.mem_cons_of_mem dep hd)
    simp only [traverseLoop] at heq
    by_cases hseen : seen.getD dep false = true
    · rw [if_pos hseen] at heq
      have spec := ih seen s out hlen hrest heq
      refine ⟨spec.len_eq, spec.marks, spec.fresh, spec.nodup, ?_, ?_, spec.bounded,
        spec.depfirst⟩
      · intro d hd
        rcases List.mem_cons.mp hd with rfl | hd'
        · rw [spec.marks d, hseen]
          rfl
        · exact spec.covers d hd'
      · intro x hx
        obtain ⟨d, hd, hr⟩ := spec.reaches x hx
        exact ⟨d, List.mem_cons_of_mem dep hd, hr⟩
    · rw [if_neg hseen] at heq
      have hseenF : seen.getD dep false = false := by
        cases h : seen.getD dep false
        · rfl
        · exact absurd h hseen
      split at heq
      · exact absurd heq (by simp)
      · rename_i seen1 out1 hdesc
        split at heq
        · exact absurd heq (by simp)
        · rename_i seen2 out2 hloop
          simp only [Option.some.injEq, Prod.mk.injEq] at heq
          obtain ⟨rfl, rfl⟩ := heq
          have spec1 := hdescend seen dep seen1 out1 hlen hdep hdesc
          have hlen1 : seen1.length = tree.length := by rw [spec1.len_eq, hlen]
          have hlen2 : (seen1.set dep true).length = tree.length := by
            rw [List.length_set, hlen1]
          have spec2 := ih (seen1.set dep true) seen2 out2 hlen2 hrest hloop
          have hdeplen : dep < seen1.length := by
            rw [hlen1]
            exact hdep
          have hset : ∀ j, (seen1.set dep true).getD j false
              = if j = dep then true else seen1.getD j false := by
            intro j
            by_cases hjd : j = dep
            · subst hjd
              rw [if_pos rfl]
              exact getD_set_self seen1 hdeplen true false
            · rw [if_neg hjd]
              exact getD_set_ne seen1 (fun h => hjd h.symm) true false
          have hdep_not_out1 : dep ∉ out1 := by
            intro hmem
            obtain ⟨d, hd, hr⟩ := spec1.reaches dep hmem
            exact acyclic_no_back hacy hd hr
          have hdep_not_out2 : dep ∉ out2 := by
            intro hmem
            have h2 := spec2.fresh dep hmem
            rw [hset dep, if_pos rfl] at h2
            exact absurd h2 (by simp)
          have hout1_true : ∀ x ∈ out1, seen1.getD x false = true := by
            intro x hx
            rw [spec1.marks x]
            simp [hx]
          have hdisj : ∀ x ∈ out1, x ∉ out2 := by
            intro x hx hx2
            have h2 := spec2.fresh x hx2
            rw [hset x] at h2
            by_cases hxd : x = dep
            · rw [if_pos hxd] at h2
              exact absurd h2 (by simp)
            · rw [if_neg hxd, hout1_true x hx] at h2
              exact absurd h2 (by simp)
          refine ⟨?_, ?_, ?_, ?_, ?_, ?_, ?_, ?_⟩
          · rw [spec2.len_eq, List.length_set, spec1.len_eq]
          · intro j
            rw [spec2.marks j, hset j, spec1.marks j]
            by_cases hjd : j = dep
            · subst hjd
              rw [if_pos rfl]
              have hmem : j ∈ out1 ++ j :: out2 :=
                List.mem_append_right _ (List.mem_cons_self j out2)
              simp [hmem]
            · rw [if_neg hjd]
              simp only [List.mem_append, List.mem_cons, eq_false hjd, false_or, Bool.or_assoc]
              by_cases h1 : j ∈ out1 <;> by_cases h2 : j ∈ out2 <;> simp [h1, h2]
          · intro j hj
            rcases List.mem_append.mp hj with hj1 | hj2
            · exact spec1.fresh j hj1
            · rcases List.mem_cons.mp hj2 with rfl | hj3
              · exact hseenF
              · have h2 := spec2.fresh j hj3
                rw [hset j] at h2
                by_cases hjd : j = dep
                · rw [if_pos hjd] at h2
                  exact absurd h2 (by simp)
                · rw [if_neg hjd, spec1.marks j] at h2
                  exact (Bool.or_eq_false_iff.mp h2).1
          · rw [List.nodup_append]
            refine ⟨spec1.nodup, List.nodup_cons.mpr ⟨hdep_not_out2, spec2.nodup⟩, ?_⟩
            intro a ha hmem
            rcases List.mem_cons.mp hmem with rfl | ha2
            · exact hdep_not_out1 ha
            · exact hdisj a ha ha2
          · intro d hd
            rcases List.mem_cons.mp hd with rfl | hd'
            · rw [spec2.marks d, hset d, if_pos rfl]
              rfl
            · exact spec2.covers d hd'
          · intro x hx
            rcases List.mem_append.mp hx with hx1 | hx2
            · obtain ⟨d, hd, hr⟩ := spec1.reaches x hx1
              exact ⟨dep, List.mem_cons_self dep rest, reach_cons hd hr⟩
            · rcases List.mem_cons.mp hx2 with rfl | hx3
              · exact ⟨x, List.mem_cons_self x rest, reach_refl tree x⟩
              · obtain ⟨d, hd, hr⟩ := spec2.reaches x hx3
                exact ⟨d, List.mem_cons_of_mem dep hd, hr⟩
          · intro x hx
            rcases List.mem_append.mp hx with hx1 | hx2
            · exact spec1.bounded x hx1
            · rcases List.mem_cons.mp hx2 with rfl | hx3
              · exact hdep
              · exact spec2.bounded x hx3
          · intro pre hpre i hi d hd
            rcases prefix_append_cases out1 (dep :: out2) pre hpre with h1 | ⟨q, rfl, hq⟩
            · exact spec1.depfirst pre h1 i hi d hd
            · cases q with
              | nil =>
                rw [List.append_nil] at hi
                rcases spec1.depfirst out1 List.prefix_rfl i hi d hd with hT | hP
                · exact Or.inl hT
                · right
                  rw [List.append_nil]
                  exact hP
              | cons x q' =>
                have hxd : dep = x := (List.cons_prefix_cons.mp hq).1.symm
                have hq' := (List.cons_prefix_cons.mp hq).2
                subst hxd
                rcases List.mem_append.mp hi with hio | hidq
                · rcases spec1.depfirst out1 List.prefix_rfl i hio d hd with hT | hP
                  · exact Or.inl hT
                  · exact Or.inr (List.mem_append_left _ hP)
                · rcases List.mem_cons.mp hidq with rfl | hiq
                  · have h1 : seen1.getD d false = true := spec1.covers d hd
                    rw [spec1.marks d] at h1
                    rcases Bool.or_eq_true_iff.mp h1 with hT | hP
                    · exact Or.inl hT
                    · exact Or.inr (List.mem_append_left _ (of_decide_eq_true hP))
                  · rcases spec2.depfirst q' hq' i hiq d hd with hT | hP
                    · rw [hset d] at hT
                      by_cases hdd : d = dep
                      · subst hdd
                        exact Or.inr (List.mem_append_right _ (List.mem_cons_self d q'))
                      · rw [if_neg hdd, spec1.marks d] at hT
                        rcases Bool.or_eq_true_iff.mp hT with hT2 | hP2
                        · exact Or.inl hT2
                        · exact Or.inr (List.mem_append_left _ (of_decide_eq_true hP2))
                    · exact Or.inr (List.mem_append_right _ (List.mem_cons_of_mem dep hP))

theorem traverseF_spec (tree : List (List Nat)) (hib : InBounds tree) (hacy : Acyclic tree) :
    ∀ (fuel : Nat) (deps : List Nat) (seen s : List Bool) (out : List Nat),
      seen.length = tree.length → (∀ d ∈ deps, d < tree.length) →
      traverseF tree fuel seen deps = some (s, out) → TravSpec tree seen s deps out := by
  intro fuel
  induction fuel with
  | zero =>
    intro deps seen s out hlen hdeps heq
    exact traverseLoop_spec tree hacy _
      (fun s1 dep s2 o _ _ h => absurd h (by simp)) deps seen s out hlen hdeps heq
  | succ f ihf =>
    intro deps seen s out hlen hdeps heq
    refine traverseLoop_spec tree hacy _ ?_ deps seen s out hlen hdeps heq
    intro s1 dep s2 o hlen1 hdep h
    exact ihf (tree.getD dep []) s1 s2 o hlen1 (fun d hd => hib dep d hd) h

theorem traverseLoop_none (tree : List (List Nat))
    (descend : List Bool → Nat → Option (List Bool × List Nat)) :
    ∀ (deps : List Nat) (seen : List Bool),
      traverseLoop tree descend seen deps = none →
      ∃ dep ∈ deps, ∃ s, descend s dep = none := by
  intro deps
  induction deps with
  | nil =>
    intro seen h
    exact absurd h (by simp [traverseLoop])
  | cons dep rest ih =>
    intro seen h
    simp only [traverseLoop] at h
    by_cases hseen : seen.getD dep false = true
    · rw [if_pos hseen] at h
      obtain ⟨d, hd, s, hs⟩ := ih seen h
      exact ⟨d, List.mem_cons_of_mem dep hd, s, hs⟩
    · rw [if_neg hseen] at h
      split at h
      · rename_i hnone
        exact ⟨dep, List.mem_cons_self dep rest, seen, hnone⟩
      · rename_i seen1 out1 hsome
        split at h
        · rename_i hnone2
          obtain ⟨d, hd, s, hs⟩ := ih _ hnone2
          exact ⟨d, List.mem_cons_of_mem dep hd, s, hs⟩
        · exact absurd h (by simp)

theorem traverseF_none (tree : List (List Nat)) :
    ∀ (fuel : Nat) (seen : List Bool) (deps : List Nat),
      traverseF tree fuel seen deps = none →
      ∃ d ∈ deps, ∃ w, w.head? = some d ∧ IsWalk tree w ∧ w.length = fuel + 1 := by
  intro fuel
  induction fuel with
  | zero =>
    intro seen deps h
    obtain ⟨dep, hdep, s, _⟩ := traverseLoop_none tree _ deps seen h
    exact ⟨dep, hdep, [dep], rfl, List.chain'_singleton dep, rfl⟩
  | succ f ihf =>
    intro seen deps h
    obtain ⟨dep, hdep, s, hs⟩ := traverseLoop_none tree _ deps seen h
    obtain ⟨d, hd, w, hh, hw, hlen⟩ := ihf s (tree.getD dep []) hs
    refine ⟨dep, hdep, dep :: w, rfl, ?_, by simp [hlen]⟩
    rw [IsWalk, List.chain'_cons']
    refine ⟨?_, hw⟩
    intro b hb
    rw [hh] at hb
    have hb' := Option.some.inj hb
    rw [← hb']
    exact hd

theorem walk_all_lt {tree : List (List Nat)} (hib : InBounds tree) :
    ∀ (w : List Nat), IsWalk tree w → ∀ h, w.head? = some h → h < tree.length →
      ∀ x ∈ w, x < tree.length := by
  intro w
  induction w with
  | nil =>
    intro _ h hh
    exact absurd hh (by simp)
  | cons a t ih =>
    intro hw h hh hlt x hx
    rw [List.head?_cons] at hh
    have ha : h = a := (Option.some.inj hh).symm
    subst ha
    rcases List.mem_cons.mp hx with rfl | hxt
    · exact hlt
    · cases t with
      | nil => exact absurd hxt (List.not_mem_nil x)
      | cons b t' =>
        have hsplit := List.chain'_cons.mp hw
        exact ih hsplit.2 b rfl (hib h b hsplit.1) x hxt

theorem traverseF_total (tree : List (List Nat)) (hib : InBounds tree) (hacy : Acyclic tree)
    (seen : List Bool) :
    traverseF tree tree.length seen (List.range tree.length) ≠ none := by
  intro h
  obtain ⟨d, hd, w, hh, hw, hlen⟩ := traverseF_none tree tree.length seen _ h
  have hdlt : d < tree.length := List.mem_range.mp hd
  have hall : ∀ x ∈ w, x < tree.length := walk_all_lt hib w hw d hh hdlt
  have hnd : w.Nodup := hacy w hw
  have hsub : w ⊆ List.range tree.length := fun x hx => List.mem_range.mpr (hall x hx)
  have hle := (List.subperm_of_subset hnd hsub).length_le
  rw [hlen, List.length_range] at hle
  omega

theorem buildTreeIterIdx_spec (bt : BuildTree) (hib : InBounds (graphOf bt.build_commands))
    (hacy : Acyclic (graphOf bt.build_commands)) :
    ∃ out, buildTreeIterIdx bt = some out ∧
      out.Perm (List.range bt.build_commands.length) ∧
      ∀ (i d : Nat), d ∈ (graphOf bt.build_commands).getD i [] → i ∈ out →
        List.indexOf d out < List.indexOf i out := by
  have htlen : (graphOf bt.build_commands).length = bt.build_commands.length :=
    graphOf_length _
  have hnn : traverseF (graphOf bt.build_commands) bt.build_commands.length
      (List.replicate bt.build_commands.length false)
      (List.range bt.build_commands.length) ≠ none := by
    have h := traverseF_total (graphOf bt.build_commands) hib hacy
      (List.replicate bt.build_commands.length false)
    rwa [htlen] at h
  cases heq : traverseF (graphOf bt.build_commands) bt.build_commands.length
      (List.replicate bt.build_commands.length false)
      (List.range bt.build_commands.length) with
  | none => exact absurd heq hnn
  | some r =>
    obtain ⟨s, out⟩ := r
    have spec := traverseF_spec (graphOf bt.build_commands) hib hacy
      bt.build_commands.length (List.range bt.build_commands.length)
      (List.replicate bt.build_commands.length false) s out
      (by rw [List.length_replicate, htlen])
      (fun d hd => by rw [htlen]; exact List.mem_range.mp hd) heq
    refine ⟨out, ?_, ?_, ?_⟩
    · simp only [buildTreeIterIdx]
      rw [heq]
      rfl
    · have hsub1 : out ⊆ List.range bt.build_commands.length := by
        intro x hx
        refine List.mem_range.mpr ?_
        have hb := spec.bounded x hx
        rwa [htlen] at hb
      have hsub2 : List.range bt.build_commands.length ⊆ out := by
        intro j hj
        have hc := spec.covers j hj
        rw [spec.marks j, getD_replicate] at hc
        simp only [Bool.false_or, decide_eq_true_eq] at hc
        exact hc
      exact List.Subperm.antisymm (List.subperm_of_subset spec.nodup hsub1)
        (List.subperm_of_subset (List.nodup_range _) hsub2)
    · intro i d hd hiout
      have hdne : d ≠ i := by
        intro hdi
        subst hdi
        have hwalk : IsWalk (graphOf bt.build_commands) [d, d] := by
          rw [IsWalk, List.chain'_cons]
          exact ⟨hd, List.chain'_singleton d⟩
        have hnd := hacy _ hwalk
        rw [List.nodup_cons] at hnd
        exact hnd.1 (List.mem_singleton_self d)
      obtain ⟨⟨k, hk⟩, hgetk⟩ := List.mem_iff_get.mp hiout
      have hklen : k < (out.take (k + 1)).length := by
        simp only [List.length_take]
        omega
      have htaken : (out.take (k + 1)).get ⟨k, hklen⟩ = out.get ⟨k, hk⟩ := by
        simp [List.get_eq_getElem, List.getElem_take]
      have hipre : i ∈ out.take (k + 1) := by
        rw [← hgetk, ← htaken]
        exact List.get_mem _ _ _
      rcases spec.depfirst (out.take (k + 1)) (List.take_prefix _ _) i hipre d hd with hT | hP
      · rw [getD_replicate] at hT
        exact absurd hT (by simp)
      · obtain ⟨⟨m, hm⟩, hgm⟩ := List.mem_iff_get.mp hP
        have hmlen : m < out.length := by
          have := hm
          simp only [List.length_take] at this
          omega
        have hgm' : out.get ⟨m, hmlen⟩ = d := by
          rw [← hgm]
          simp [List.get_eq_getElem, List.getElem_take]
        have hmk : m ≤ k := by
          have := hm
          simp only [List.length_take] at this
          omega
        have hmne : m ≠ k := by
          intro hmkeq
          subst hmkeq
          rw [hgetk] at hgm'
          exact hdne hgm'.symm
        have hdmem : d ∈ out := by
          rw [← hgm']
          exact List.get_mem _ _ _
        have hidxd : List.indexOf d out = m := by
          have h1 : List.indexOf d out < out.length := List.indexOf_lt_length.mpr hdmem
          have h2 : out[List.indexOf d out] = d := List.getElem_indexOf h1
          have h3 : out[m] = d := hgm'
          exact (spec.nodup.getElem_inj_iff).mp (by rw [h2, h3])
        have hidxi : List.indexOf i out = k := by
          have h1 : List.indexOf i out < out.length := List.indexOf_lt_length.mpr hiout
          have h2 : out[List.indexOf i out] = i := List.getElem_indexOf h1
          have h3 : out[k] = i := hgetk
          exact (spec.nodup.getElem_inj_iff).mp (by rw [h2, h3])
        rw [hidxd, hidxi]
        omega

/-! ## External-dependencies map theory -/

theorem foldl_prepend_eq_reverse_append {α β : Type} (f : α → β) :
    ∀ (l : List α) (acc : List β),
      l.foldl (fun m x => f x :: m) acc = (l.map f).reverse ++ acc := by
  intro l
  induction l with
  | nil =>
    intro acc
    simp
  | cons x rest ih =>
    intro acc
    rw [List.foldl_cons, ih, List.map_cons, List.reverse_cons, List.append_assoc]
    rfl

theorem assembleExternalDeps_eq (batches : List Batch) :
    assembleExternalDeps batches =
      (batches.map (fun b => (variantStr b.variant, b.external_deps))).reverse := by
  have h := foldl_prepend_eq_reverse_append
    (fun b : Batch => (variantStr b.variant, b.external_deps)) batches []
  simpa using h

theorem find?_eq_none_of_keys {m : List (String × List String)} {k : String}
    (h : ∀ x ∈ m, x.1 ≠ k) : m.find? (fun p => p.1 == k) = none := by
  rw [List.find?_eq_none]
  intro x hx
  simp only [beq_iff_eq]
  exact h x hx

theorem find?_key_unique :
    ∀ (m : List (String × List String)) (k : String) (v : List String),
      (m.map Prod.fst).Nodup → (k, v) ∈ m →
      m.find? (fun p => p.1 == k) = some (k, v) := by
  intro m
  induction m with
  | nil =>
    intro k v _ hmem
    exact absurd hmem (List.not_mem_nil _)
  | cons x rest ih =>
    intro k v hnd hmem
    rw [List.map_cons, List.nodup_cons] at hnd
    rcases List.mem_cons.mp hmem with rfl | hmem'
    · rw [List.find?_cons_of_pos _ (by simp)]
    · have hx1 : x.1 ≠ k := by
        intro heq
        apply hnd.1
        rw [heq]
        exact List.mem_map_of_mem Prod.fst hmem'
      rw [List.find?_cons_of_neg _ (by simp [hx1]), ih k v hnd.2 hmem']

/-! ## Batch locality of linked dependency indices -/

theorem batch_local_deps : ∀ (batches : List Batch) (b i j : Nat),
    b < batches.length → i < (batches.getD b default).recipes.length →
    j ∈ ((assembleCommands batches).getD (batchStart batches b + i)
      default).build_command_dependencies →
    batchStart batches b ≤ j ∧
      j < batchStart batches b + (batches.getD b default).recipes.length := by
  intro batches b i j hb hi hj
  rw [assembleCommands_eq] at hj
  have hget : (batches.map (fun x => x.recipes)).getD b [] = (batches.getD b default).recipes := by
    rw [List.getD_eq_getElem?_getD, List.getD_eq_getElem?_getD,
      List.getElem?_eq_getElem (by rw [List.length_map]; exact hb),
      List.getElem?_eq_getElem hb, Option.getD_some, Option.getD_some, List.getElem_map]
  have hbs : batchStart batches b
      = (((batches.map (fun x => x.recipes)).take b).map List.length).sum := by
    simp only [batchStart, ← List.map_take, List.map_map]
    rfl
  rw [hbs] at hj ⊢
  have hpieces := assemblePieces_getD (batches.map (fun x => x.recipes)) 0 b
    (by rw [List.length_map]; exact hb) i (by rw [hget]; exact hi)
  rw [hpieces] at hj
  have hbound := linked_deps_bound _ _ (by rw [hget]; exact hi) hj
  rw [hget] at hbound
  omega

/-! ## Claims -/

set_option maxRecDepth 16384

/-- C1: Construction of a BuildTree raises the cycle error (BUILD_TREE_CYCLE)
if and only if the resolved dependency graph contains a cycle reachable from
some index; hence for every BuildTree whose construction completes without
raising, the graph is a DAG. -/
theorem C1_cycle_error_iff : ∀ (batches : List Batch),
    (isCycleError (buildTreeConstruct batches) = true ↔
      ∃ s, CycleReachableFrom (graphOf (assembleCommands batches)) s) ∧
    (∀ bt, buildTreeConstruct batches = Except.ok bt →
      Acyclic (graphOf bt.build_commands)) := by
  intro batches
  constructor
  · constructor
    · intro h
      by_contra hno
      push_neg at hno
      have hdetn : detect_cycle (assembleCommands batches) 10 = none := by
        rw [detect_cycle_eq_none_iff]
        intro s hs
        by_contra hfac
        obtain ⟨w, hh, hw, hnd⟩ := (find_all_cycles_ne_nil_iff _ _ _).mp hfac
        exact hno s ⟨w, hh, hw, by simpa using hnd⟩
      simp only [buildTreeConstruct, isCycleError] at h
      rw [hdetn] at h
      simp at h
    · rintro ⟨s, hs⟩
      have hslt := cycleReachable_head_lt hs
      rw [graphOf_length] at hslt
      obtain ⟨w, hh, hw, hnd⟩ := hs
      have hfac : find_all_cycles (graphOf (assembleCommands batches)) s [] ≠ [] :=
        (find_all_cycles_ne_nil_iff _ _ _).mpr ⟨w, hh, hw, by simpa using hnd⟩
      have hcol : collectCycles (graphOf (assembleCommands batches)) 10
          (List.range (assembleCommands batches).length) [] ≠ [] :=
        (collectCycles_ne_nil_iff (by norm_num)).mpr
          (Or.inr ⟨s, List.mem_range.mpr hslt, hfac⟩)
      have hdet := detect_cycle_eq_some (assembleCommands batches) hcol
      simp only [buildTreeConstruct, isCycleError]
      rw [hdet]
      simp [mkOpenCEError]
  · intro bt hok
    exact construct_ok_acyclic hok

/-- C1 witness: the acyclic demo constructs and its graph is acyclic; the
cyclic demo raises the cycle error, so a cycle is reachable. -/
theorem C1_witness :
    Acyclic (graphOf demoTreeBuilt.build_commands) ∧
      ∃ s, CycleReachableFrom (graphOf (assembleCommands demoCyclicBatches)) s :=
  ⟨(C1_cycle_error_iff demoBatches).2 demoTreeBuilt rfl,
   (C1_cycle_error_iff demoCyclicBatches).1.mp (by decide)⟩

/-- C2: For every successfully constructed BuildTree, every dependency index
d of unit i is yielded strictly before unit i in the iteration sequence. -/
theorem C2_dependency_first : ∀ (batches : List Batch) (bt : BuildTree) (out : List Nat)
    (i d : Nat),
    buildTreeConstruct batches = Except.ok bt →
    buildTreeIterIdx bt = some out →
    d ∈ (graphOf bt.build_commands).getD i [] →
    i < bt.build_commands.length →
    List.indexOf d out < List.indexOf i out := by
  intro batches bt out i d hok hiter hd hi
  have hacy := construct_ok_acyclic hok
  have hib : InBounds (graphOf bt.build_commands) := by
    obtain ⟨rfl, _⟩ := construct_ok_elim hok
    exact assembled_inBounds batches
  obtain ⟨out', hiter', hperm, hdf⟩ := buildTreeIterIdx_spec bt hib hacy
  rw [hiter] at hiter'
  have hout : out = out' := Option.some.inj hiter'
  subst hout
  exact hdf i d hd (hperm.mem_iff.mpr (List.mem_range.mpr hi))

/-- C2 witness: in the demo tree, unit 1 depends on unit 0, and 0 is yielded
before 1. -/
theorem C2_witness : List.indexOf 0 [0, 1, 2] < List.indexOf 1 [0, 1, 2] :=
  C2_dependency_first demoBatches demoTreeBuilt [0, 1, 2] 1 0 rfl rfl (by decide) (by decide)

/-- C3: For every successfully constructed BuildTree with N units, iterating
it yields a permutation of the indices 0..N-1: no duplicates, no
omissions. -/
theorem C3_iteration_permutation : ∀ (batches : List Batch) (bt : BuildTree),
    buildTreeConstruct batches = Except.ok bt →
    ∃ out, buildTreeIterIdx bt = some out ∧
      out.Perm (List.range bt.build_commands.length) := by
  intro batches bt hok
  have hib : InBounds (graphOf bt.build_commands) := by
    obtain ⟨rfl, _⟩ := construct_ok_elim hok
    exact assembled_inBounds batches
  obtain ⟨out, h1, h2, _⟩ := buildTreeIterIdx_spec bt hib (construct_ok_acyclic hok)
  exact ⟨out, h1, h2⟩

/-- C3 witness: the demo tree iterates to a permutation of its indices. -/
theorem C3_witness :
    ∃ out, buildTreeIterIdx demoTreeBuilt = some out ∧
      out.Perm (List.range demoTreeBuilt.build_commands.length) :=
  C3_iteration_permutation demoBatches demoTreeBuilt rfl

/-- C4: After the Dependency Linker runs on a batch, a unit consuming a bare
name receives the global index of every producer of that name in the batch
except itself; in particular with producers at local indices 2 and 5 and a
consumer at 7, both producer indices are present. -/
theorem C4_multi_producer_fanin : ∀ (cmds : List BuildCommand) (start i k : Nat) (p : String),
    i < cmds.length → k < cmds.length →
    p ∈ depNames (cmds.getD i default) →
    p ∈ (cmds.getD k default).packages →
    k ≠ i →
    (start + k) ∈ ((add_build_command_dependencies cmds start).getD i
      default).build_command_dependencies := by
  intro cmds start i k p hi hk hp hpk hne
  rw [mem_add_deps cmds start hi]
  exact ⟨p, hp, k, hk, rfl, hpk, by omega⟩

/-- C4 witness: in the eight-unit batch linked at offset 3, units 2 and 5
produce `A`, unit 7 consumes `A >=1.0`, and both global indices 5 and 8 are
in unit 7's dependency list. -/
theorem C4_witness :
    (3 + 2) ∈ ((add_build_command_dependencies demoFanBatch 3).getD 7
      default).build_command_dependencies ∧
    (3 + 5) ∈ ((add_build_command_dependencies demoFanBatch 3).getD 7
      default).build_command_dependencies :=
  ⟨C4_multi_producer_fanin demoFanBatch 3 7 2 "A" (by decide) (by decide) (by decide)
      (by decide) (by decide),
   C4_multi_producer_fanin demoFanBatch 3 7 5 "A" (by decide) (by decide) (by decide)
      (by decide) (by decide)⟩

/-- C5: No unit's dependency list ever contains the unit's own global index,
even if it produces a package name it also consumes. -/
theorem C5_no_self_dependency : ∀ (cmds : List BuildCommand) (start i : Nat),
    i < cmds.length →
    (start + i) ∉ ((add_build_command_dependencies cmds start).getD i
      default).build_command_dependencies := by
  intro cmds start i hi hmem
  rw [mem_add_deps cmds start hi] at hmem
  obtain ⟨p, _, k, _, heq, _, hne⟩ := hmem
  exact hne rfl

/-- C5 witness: unit 6 of the eight-unit batch produces and consumes `p6`,
yet its own global index is absent from its dependency list. -/
theorem C5_witness :
    (3 + 6) ∉ ((add_build_command_dependencies demoFanBatch 3).getD 6
      default).build_command_dependencies :=
  C5_no_self_dependency demoFanBatch 3 6 (by decide)

/-- C6 counterexample: the claim that some input produces a cross-batch
dependency edge is false — for every input, every dependency index of a unit
stays inside its own batch's global index range. -/
theorem C6_counterexample :
    ¬ ∃ (batches : List Batch) (b i j : Nat),
      b < batches.length ∧ i < (batches.getD b default).recipes.length ∧
      j ∈ ((assembleCommands batches).getD (batchStart batches b + i)
        default).build_command_dependencies ∧
      (j < batchStart batches b ∨
        batchStart batches b + (batches.getD b default).recipes.length ≤ j) := by
  rintro ⟨batches, b, i, j, hb, hi, hj, hout⟩
  have h := batch_local_deps batches b i j hb hi hj
  omega

/-- C6 amended: cross-variant dependency edges are impossible — every index
in a unit's dependency list refers to a unit in the same variant batch,
because the producer map is built from the batch alone. -/
theorem C6_amended_batch_local : ∀ (batches : List Batch) (b i j : Nat),
    b < batches.length → i < (batches.getD b default).recipes.length →
    j ∈ ((assembleCommands batches).getD (batchStart batches b + i)
      default).build_command_dependencies →
    batchStart batches b ≤ j ∧
      j < batchStart batches b + (batches.getD b default).recipes.length :=
  batch_local_deps

/-- C6 witness: unit 1 of the first demo batch depends on index 0, which
lies inside that batch's range. -/
theorem C6_witness :
    batchStart demoBatches 0 ≤ 0 ∧
      0 < batchStart demoBatches 0 + (demoBatches.getD 0 default).recipes.length :=
  C6_amended_batch_local demoBatches 0 1 0 (by decide) (by decide) (by decide)

/-- C7 counterexample: the cycle report of the demo cycle renders the raw
`recipe` attributes (`a_b`, `c_d`), not the derived `BuildCommand.name`
slugs, which normalise underscores and so differ from every string in the
report. -/
theorem C7_counterexample :
    (∃ e, buildTreeConstruct demoCyclicBatches = Except.error e ∧
      e.error = Error.BUILD_TREE_CYCLE ∧
      e.msg = "[OPEN-CE-ERROR-14] Build dependencies should form a Directed Acyclic Graph.\nThe following dependency cycles were detected in the build tree:\na_b -> c_d -> a_b\nc_d -> a_b -> c_d") ∧
    ∀ bc ∈ assembleCommands demoCyclicBatches,
      BuildCommand.name bc ≠ "a_b" ∧ BuildCommand.name bc ≠ "c_d" := by
  constructor
  · exact ⟨mkOpenCEError Error.BUILD_TREE_CYCLE ["a_b -> c_d -> a_b\nc_d -> a_b -> c_d"],
      rfl, rfl, by decide⟩
  · decide

/-- C7 amended: when cycles are detected, construction fails with the
BUILD_TREE_CYCLE error whose report joins each cycle's raw `recipe`
attributes with " -> ", one cycle per line, at most ten cycles shown, with
the truncation suffix appended when more cycles were collected than shown;
and every reported cycle is a genuine walk of the graph revisiting a
node. -/
theorem C7_amended_report : ∀ (batches : List Batch),
    collectCycles (graphOf (assembleCommands batches)) 10
      (List.range (assembleCommands batches).length) [] ≠ [] →
    buildTreeConstruct batches = Except.error (mkOpenCEError Error.BUILD_TREE_CYCLE
      [cyclePrint (assembleCommands batches)
        (collectCycles (graphOf (assembleCommands batches)) 10
          (List.range (assembleCommands batches).length) []) 10]) ∧
    (∀ cyc ∈ collectCycles (graphOf (assembleCommands batches)) 10
        (List.range (assembleCommands batches).length) [],
      IsWalk (graphOf (assembleCommands batches)) cyc ∧ ¬ cyc.Nodup) ∧
    cyclePrint (assembleCommands batches)
        (collectCycles (graphOf (assembleCommands batches)) 10
          (List.range (assembleCommands batches).length) []) 10
      = String.intercalate "\n"
          (((collectCycles (graphOf (assembleCommands batches)) 10
              (List.range (assembleCommands batches).length) []).take
            (min 10 (collectCycles (graphOf (assembleCommands batches)) 10
              (List.range (assembleCommands batches).length) []).length)).map
            (fun cyc => String.intercalate " -> "
              (cyc.map (fun idx => ((assembleCommands batches).getD idx default).recipe))))
        ++ (if 10 < (collectCycles (graphOf (assembleCommands batches)) 10
              (List.range (assembleCommands batches).length) []).length
            then "\nCycles truncated after 10..." else "") := by
  intro batches hcol
  refine ⟨?_, ?_, ?_⟩
  · simp only [buildTreeConstruct]
    rw [detect_cycle_eq_some (assembleCommands batches) hcol]
  · intro cyc hcyc
    rcases collectCycles_mem hcyc with h | ⟨s, _, hfac⟩
    · exact absurd h (List.not_mem_nil cyc)
    · obtain ⟨w, rfl, _, hw, hnd⟩ := find_all_cycles_sound hfac
      exact ⟨hw, hnd⟩
  · simp only [cyclePrint]
    by_cases h : 10 < (collectCycles (graphOf (assembleCommands batches)) 10
        (List.range (assembleCommands batches).length) []).length
    · rw [if_pos h, if_pos h, String.append_assoc]
      congr 1
    · rw [if_neg h, if_neg h, String.append_empty]

/-- C7 amended witness: the demo cycle produces the error with the
recipe-rendered report. -/
theorem C7_witness :
    buildTreeConstruct demoCyclicBatches = Except.error (mkOpenCEError Error.BUILD_TREE_CYCLE
      [cyclePrint (assembleCommands demoCyclicBatches)
        (collectCycles (graphOf (assembleCommands demoCyclicBatches)) 10
          (List.range (assembleCommands demoCyclicBatches).length) []) 10]) :=
  (C7_amended_report demoCyclicBatches (by decide)).1

/-- C8: The clone step runs only when the target directory does not exist;
a non-zero status from the system call raises CLONE_REPO carrying the
source URL, and a zero status (or an existing directory) raises nothing. -/
theorem C8_clone_failure : ∀ (dir_exists : Bool) (system : String → Int)
    (gte gtc egt : Option String) (git_url repo_dir : String),
    (dir_exists = false →
      system (cloneCmd (cloneGitTag gte gtc egt) git_url repo_dir) ≠ 0 →
      ensure_repo dir_exists system gte gtc egt git_url repo_dir =
        Except.error (mkOpenCEError Error.CLONE_REPO [git_url])) ∧
    ((dir_exists = true ∨ system (cloneCmd (cloneGitTag gte gtc egt) git_url repo_dir) = 0) →
      ensure_repo dir_exists system gte gtc egt git_url repo_dir = Except.ok ()) := by
  intro dir_exists system gte gtc egt git_url repo_dir
  constructor
  · intro hdir hnz
    subst hdir
    simp only [ensure_repo, Bool.false_eq_true, if_false, clone_repo]
    rw [if_pos hnz]
  · rintro (hdir | hz)
    · subst hdir
      simp [ensure_repo]
    · cases dir_exists
      · simp only [ensure_repo, Bool.false_eq_true, if_false, clone_repo]
        rw [if_neg (by simp [hz])]
      · simp [ensure_repo]

/-- C8 witness: a failing clone of a concrete URL produces the CLONE_REPO
error whose message carries the URL; a succeeding clone produces no
error. -/
theorem C8_witness :
    ensure_repo false (fun _ => 1) none none none "https://example.com/repo.git" "dir" =
      Except.error (mkOpenCEError Error.CLONE_REPO ["https://example.com/repo.git"]) ∧
    ensure_repo false (fun _ => 0) none none none "https://example.com/repo.git" "dir" =
      Except.ok () ∧
    (mkOpenCEError Error.CLONE_REPO ["https://example.com/repo.git"]).msg =
      "[OPEN-CE-ERROR-9] Unable to clone repository: https://example.com/repo.git" :=
  ⟨(C8_clone_failure false (fun _ => 1) none none none "https://example.com/repo.git" "dir").1
      rfl (by decide),
   (C8_clone_failure false (fun _ => 0) none none none "https://example.com/repo.git" "dir").2
      (Or.inr rfl),
   by decide⟩

/-- C9: get_external_dependencies returns the external-dependency list
recorded for a variant that was part of construction (under distinct
variant keys), and the empty list for every unknown variant, without
raising. -/
theorem C9_external_deps : ∀ (batches : List Batch) (bt : BuildTree) (v : Variant),
    buildTreeConstruct batches = Except.ok bt →
    ((∀ b ∈ batches, variantStr b.variant ≠ variantStr v) →
      get_external_dependencies bt v = []) ∧
    (∀ b ∈ batches, (batches.map (fun x => variantStr x.variant)).Nodup →
      b.variant = v → get_external_dependencies bt v = b.external_deps) := by
  intro batches bt v hok
  obtain ⟨rfl, _⟩ := construct_ok_elim hok
  constructor
  · intro hall
    simp only [get_external_dependencies]
    rw [assembleExternalDeps_eq, find?_eq_none_of_keys ?_]
    · rfl
    · intro x hx
      rw [List.mem_reverse, List.mem_map] at hx
      obtain ⟨b, hb, rfl⟩ := hx
      exact hall b hb
  · intro b hb hnd hbv
    simp only [get_external_dependencies]
    rw [assembleExternalDeps_eq]
    have hmem : (variantStr v, b.external_deps) ∈
        (batches.map (fun x => (variantStr x.variant, x.external_deps))).reverse := by
      rw [List.mem_reverse, List.mem_map]
      exact ⟨b, hb, by rw [hbv]⟩
    have hkeys : (((batches.map
        (fun x => (variantStr x.variant, x.external_deps))).reverse).map Prod.fst).Nodup := by
      rw [List.map_reverse, List.nodup_reverse, List.map_map]
      exact hnd
    rw [find?_key_unique _ (variantStr v) b.external_deps hkeys hmem]
    rfl

/-- C9 witness: the first demo variant's external list is returned; an
unknown variant yields the empty list. -/
theorem C9_witness :
    get_external_dependencies demoTreeBuilt demoVariant
        = (demoBatches.getD 0 default).external_deps ∧
    get_external_dependencies demoTreeBuilt ⟨"3.7", "cpu", "openmpi"⟩ = [] :=
  ⟨(C9_external_deps demoBatches demoTreeBuilt demoVariant rfl).2
      (demoBatches.getD 0 default) (by decide) (by decide) rfl,
   (C9_external_deps demoBatches demoTreeBuilt ⟨"3.7", "cpu", "openmpi"⟩ rfl).1 (by decide)⟩

/-- C10: Every index the Dependency Linker places into a dependency list
lies in the unit's own batch range [start, start + batch length), and in
the completed graph every dependency index is below the total unit count,
so traversal and cycle detection never index out of range. -/
theorem C10_indices_in_bounds :
    (∀ (cmds : List BuildCommand) (start i j : Nat), i < cmds.length →
      j ∈ ((add_build_command_dependencies cmds start).getD i
        default).build_command_dependencies →
      start ≤ j ∧ j < start + cmds.length) ∧
    (∀ batches : List Batch, InBounds (graphOf (assembleCommands batches))) := by
  constructor
  · intro cmds start i j hi hj
    exact linked_deps_bound cmds start hi hj
  · exact assembled_inBounds

/-- C10 witness: dependency index 5 of unit 7 in the batch linked at offset
3 lies inside the batch range. -/
theorem C10_witness : 3 ≤ 5 ∧ 5 < 3 + demoFanBatch.length :=
  C10_indices_in_bounds.1 demoFanBatch 3 7 5 (by decide) (by decide)

end OpenCE
